import Mathlib

/-!
# Verification of the `orderedmap` library

Shallow embedding of `orderedmap.go` / `item.go` (package `orderedmap`):
a generic insertion-ordered map built from a doubly-linked list of keys
(`glist.List[K]`, modelled as a Lean `List K`) and a hash map from keys to
items (`map[K]*Item[K,V]`, modelled as an association list with at most one
binding per key in every reachable state).

All operations in the Go source run under a single read-write mutex; in the
sequential model each exported operation is one atomic step.  `LoadOrStore`
is the exception: in the source it is a `Load` (read lock) followed by a
`Store` (write lock) with no lock held in between, so for the concurrency
claim it is modelled as two separate atomic steps.
-/

set_option autoImplicit false

universe u v w

namespace OM

variable {K : Type u} {V : Type v}

/-- Lookup in the model of the Go built-in map: the first binding of `k` in
the association list (reachable states never hold two bindings of one key). -/
def mapLookup [DecidableEq K] (l : List (K × V)) (k : K) : Option V :=
  match l with
  | [] => none
  | p :: rest => if p.1 = k then some p.2 else mapLookup rest k

/-- Model of `OrderedMap[K, V]`: `keys` is the `glist.List[K]` holding the
insertion order front-to-back, `items` is the Go map from key to item value.
The item's back-pointers (`e *glist.Element[K]`, `m *OrderedMap`) are
represented by the key's position in `keys` itself. -/
structure OrderedMap (K : Type u) (V : Type v) where
  keys : List K
  items : List (K × V)
deriving DecidableEq

namespace OrderedMap

/-- `New` returns an empty ordered map. -/
def New : OrderedMap K V := ⟨[], []⟩

/-- `Store`: the Go source inserts a fresh item and pushes the key to the back
of the list only when the key is absent; when the key is already present the
guarded block is skipped and the map is returned unchanged. -/
def Store [DecidableEq K] (m : OrderedMap K V) (k : K) (v : V) : OrderedMap K V :=
  if (mapLookup m.items k).isSome then m
  else ⟨m.keys ++ [k], m.items ++ [(k, v)]⟩

/-- `Load`: returns the stored value and `true` when the key is present,
otherwise the zero value of `V` (Lean's `default`) and `false`. -/
def Load [DecidableEq K] [Inhabited V] (m : OrderedMap K V) (k : K) : V × Bool :=
  match mapLookup m.items k with
  | some v => (v, true)
  | none => (default, false)

/-- `Has`: key presence, via `Load` in the source. -/
def Has [DecidableEq K] (m : OrderedMap K V) (k : K) : Bool :=
  (mapLookup m.items k).isSome

/-- `LoadOrStore`: the source assigns the named returns from `Load`, returns
them as-is when loaded, and otherwise calls `Store` and returns the (still
zero-valued) named returns.  The result is (new state, actual, loaded). -/
def LoadOrStore [DecidableEq K] [Inhabited V] (m : OrderedMap K V) (k : K) (v : V) :
    OrderedMap K V × V × Bool :=
  let r := m.Load k
  if r.2 then (m, r)
  else (m.Store k v, r)

/-- `Delete`: when the key is present, its list element is removed from the
key list and its binding from the map; otherwise the map is returned
unchanged.  The item's list element is the unique occurrence of `k` in
`keys`, so removing it is `List.erase`; Go's map `delete` removes the
binding of `k`. -/
def Delete [DecidableEq K] (m : OrderedMap K V) (k : K) : OrderedMap K V :=
  if (mapLookup m.items k).isSome then
    ⟨m.keys.erase k, m.items.filter (fun p => decide (p.1 ≠ k))⟩
  else m

/-- `Len` returns `m.keys.Len()`, the length of the order list. -/
def Len (m : OrderedMap K V) : Nat :=
  m.keys.length

/-- `Clear` replaces both structures with fresh empty ones. -/
def Clear (m : OrderedMap K V) : OrderedMap K V :=
  let _ := m
  New

end OrderedMap

/-- `TravelMode` (`Forward`/`Reverse`). -/
inductive TravelMode where
  | forward
  | reverse
deriving DecidableEq

/-- The key list walked by `Travel`: front-to-back via `Next` in `Forward`
mode, back-to-front via `Prev` in `Reverse` mode. -/
def travelKeys (m : OrderedMap K V) : TravelMode → List K
  | .forward => m.keys
  | .reverse => m.keys.reverse

/-- The (key, value) pairs `Travel` reads in walk order: each walked list
element's key is looked up in `items` (in reachable states the lookup always
succeeds). -/
def travelPairs [DecidableEq K] (m : OrderedMap K V) (mode : TravelMode) : List (K × V) :=
  (travelKeys m mode).filterMap fun k => (mapLookup m.items k).map fun v => (k, v)

/-- The pairs in insertion (front-to-back) order. -/
def orderedPairs [DecidableEq K] (m : OrderedMap K V) : List (K × V) :=
  travelPairs m .forward

/-- The filter chain of `Travel`: filters run in order; as soon as one
returns `false` the loop breaks (`drop` is set).  Returns the decision
together with how many filters were actually called for this node. -/
def runFilters (filters : List (Nat → K → V → Bool)) (i : Nat) (k : K) (v : V) :
    Bool × Nat :=
  match filters with
  | [] => (true, 0)
  | f :: fs =>
    if f i k v then
      let r := runFilters fs i k v
      (r.1, r.2 + 1)
    else (false, 1)

/-- One walk of the `Travel` loop over the pairs, starting at index `i`
(the source passes `idx-1` after incrementing, i.e. 0, 1, 2, …, one
increment per node walked whatever the filters decide).  Each walked node is
recorded as `(index, key, value, accepted)`; a node whose filters all accept
is passed to the visitor and, when the visitor returns `true`, the loop
breaks. -/
def travelWalk (f : Nat → K → V → Bool) (filters : List (Nat → K → V → Bool)) :
    Nat → List (K × V) → List (Nat × K × V × Bool)
  | _, [] => []
  | i, (k, v) :: rest =>
    if (runFilters filters i k v).1 then
      if f i k v then [(i, k, v, true)]
      else (i, k, v, true) :: travelWalk f filters (i + 1) rest
    else (i, k, v, false) :: travelWalk f filters (i + 1) rest

/-- `Travel`: the `(idx, key, value)` triples passed to the visitor, in
order. -/
def travel [DecidableEq K] (m : OrderedMap K V) (mode : TravelMode)
    (f : Nat → K → V → Bool) (filters : List (Nat → K → V → Bool)) :
    List (Nat × K × V) :=
  (travelWalk f filters 0 (travelPairs m mode)).filterMap
    fun t => if t.2.2.2 then some (t.1, t.2.1, t.2.2.1) else none

/-- `slice`: built on `Travel` with a visitor that appends the value and
never stops. -/
def slice [DecidableEq K] (m : OrderedMap K V) (mode : TravelMode)
    (filters : List (Nat → K → V → Bool)) : List V :=
  (travel m mode (fun _ _ _ => false) filters).map fun t => t.2.2

/-- `Slice`: forward slice. -/
def Slice [DecidableEq K] (m : OrderedMap K V)
    (filters : List (Nat → K → V → Bool)) : List V :=
  slice m .forward filters

/-- `Reverse`: reverse slice. -/
def ReverseSlice [DecidableEq K] (m : OrderedMap K V)
    (filters : List (Nat → K → V → Bool)) : List V :=
  slice m .reverse filters

/-- `Range`: calls `TravelForward` with no filters and the visitor
`fun idx k v => f k v`; the `(key, value)` pairs passed to `f`, in order. -/
def rangeVisits [DecidableEq K] (m : OrderedMap K V) (f : K → V → Bool) :
    List (K × V) :=
  (travel m .forward (fun _ k v => f k v) []).map fun t => (t.2.1, t.2.2)

/-- The visit list `Range` is specified to produce: the items front-to-back,
stopping (inclusively) at the first item where the callback returns `true`. -/
def rangeSpecVisits (f : K → V → Bool) : List (K × V) → List (K × V)
  | [] => []
  | (k, v) :: rest => if f k v then [(k, v)] else (k, v) :: rangeSpecVisits f rest

/-- A mutating operation of the public API. -/
inductive Op (K : Type u) (V : Type v) where
  | store (k : K) (v : V)
  | delete (k : K)
  | clear
  | loadOrStore (k : K) (v : V)

/-- The state transition of one operation. -/
def applyOp [DecidableEq K] [Inhabited V] (m : OrderedMap K V) : Op K V → OrderedMap K V
  | .store k v => m.Store k v
  | .delete k => m.Delete k
  | .clear => m.Clear
  | .loadOrStore k v => (m.LoadOrStore k v).1

/-- The state reached from a fresh map by a sequence of operations. -/
def applyOps [DecidableEq K] [Inhabited V] (ops : List (Op K V)) : OrderedMap K V :=
  ops.foldl applyOp .New

/-- One step of the specification-level bookkeeping of live keys: a store of
a new key appends it, a delete erases it, a clear drops everything.  The
resulting list enumerates the distinct keys stored and not subsequently
deleted, in first-insertion order. -/
def liveStep [DecidableEq K] (acc : List K) : Op K V → List K
  | .store k _ => if k ∈ acc then acc else acc ++ [k]
  | .delete k => acc.erase k
  | .clear => []
  | .loadOrStore k _ => if k ∈ acc then acc else acc ++ [k]

/-- The distinct keys stored and not subsequently deleted by `ops`. -/
def liveList [DecidableEq K] (ops : List (Op K V)) : List K :=
  ops.foldl liveStep []

/-- The structural invariant of an ordered map: the order list holds no
duplicate keys, every listed key has a binding in the items map, and every
binding's key is listed. -/
def Inv [DecidableEq K] (m : OrderedMap K V) : Prop :=
  m.keys.Nodup ∧ (∀ k ∈ m.keys, (mapLookup m.items k).isSome) ∧
    (∀ p ∈ m.items, p.1 ∈ m.keys)

instance [DecidableEq K] (m : OrderedMap K V) : Decidable (Inv m) := by
  unfold Inv; infer_instance

/-- `MarshalJSON`'s loop body: walk the pairs front-to-back, encode key then
value, break at the first encoding error (discarding the buffer), and write
a comma after an item exactly when the list element has a successor. -/
def marshalBody {E : Type} (encK : K → Except E String) (encV : V → Except E String) :
    List (K × V) → Except E String
  | [] => .ok ""
  | (k, v) :: rest =>
    match encK k with
    | .error e => .error e
    | .ok ks =>
      match encV v with
      | .error e => .error e
      | .ok vs =>
        match marshalBody encK encV rest with
        | .error e => .error e
        | .ok tail => .ok (ks ++ ":" ++ vs ++ (if rest.isEmpty then "" else ",") ++ tail)

/-- `MarshalJSON`: braces around the comma-joined encoded items; on any
encoding error the error is returned and the partial buffer discarded. -/
def MarshalJSON [DecidableEq K] {E : Type} (encK : K → Except E String)
    (encV : V → Except E String) (m : OrderedMap K V) : Except E String :=
  (marshalBody encK encV (orderedPairs m)).map fun body => "\x7b" ++ body ++ "\x7d"

/-- Specification-level encoding of one item: `encodedKey ':' encodedValue`,
failing with the encoder's error. -/
def encodePairSpec {E : Type} (encK : K → Except E String) (encV : V → Except E String)
    (p : K × V) : Except E String := do
  let ks ← encK p.1
  let vs ← encV p.2
  pure (ks ++ ":" ++ vs)

/-- Join strings with `,` separators and no trailing comma. -/
def joinComma : List String → String
  | [] => ""
  | [s] => s
  | s :: rest => s ++ "," ++ joinComma rest

/-- Specification-level serialized form: `{` + items joined by `,` + `}`,
or the first encoding error in scan order. -/
def marshalSpec {E : Type} (encK : K → Except E String) (encV : V → Except E String)
    (l : List (K × V)) : Except E String :=
  match l.mapM (encodePairSpec encK encV) with
  | .error e => .error e
  | .ok parts => .ok ("\x7b" ++ joinComma parts ++ "\x7d")

/-- Store a whole list of key-value pairs, in order. -/
def storeAll [DecidableEq K] (m : OrderedMap K V) (l : List (K × V)) : OrderedMap K V :=
  l.foldl (fun acc p => acc.Store p.1 p.2) m

/-- Program counter of a thread running `LoadOrStore k v`: it has not yet
run its `Load` step, or it loaded `false` and has not yet run its `Store`
step, or it returned `(actual, loaded)`.  In the source the two steps take
the lock separately, so another thread may run between them. -/
inductive LOSState (V : Type v) where
  | toLoad
  | toStore
  | done (actual : V) (loaded : Bool)
deriving DecidableEq

/-- One atomic step of a thread running `LoadOrStore k v`. -/
def losStep [DecidableEq K] [Inhabited V] (k : K) (v : V)
    (s : OrderedMap K V × LOSState V) : OrderedMap K V × LOSState V :=
  match s.2 with
  | .toLoad =>
    let r := s.1.Load k
    if r.2 then (s.1, .done r.1 r.2) else (s.1, .toStore)
  | .toStore => (s.1.Store k v, .done default false)
  | .done a l => (s.1, .done a l)

/-- Run two threads, thread 1 calling `LoadOrStore k v1` and thread 2
calling `LoadOrStore k v2`, from a fresh map, under a schedule listing which
thread takes the next atomic step (`true` = thread 1). -/
def losRun2 [DecidableEq K] [Inhabited V] (k : K) (v1 v2 : V) (sched : List Bool) :
    OrderedMap K V × LOSState V × LOSState V :=
  sched.foldl
    (fun st b =>
      if b then
        let r := losStep k v1 (st.1, st.2.1)
        (r.1, r.2, st.2.2)
      else
        let r := losStep k v2 (st.1, st.2.2)
        (r.1, st.2.1, r.2))
    (.New, .toLoad, .toLoad)

/-! ## Lemmas about `mapLookup` -/

theorem mapLookup_append [DecidableEq K] (l₁ l₂ : List (K × V)) (k : K) :
    mapLookup (l₁ ++ l₂) k = ((mapLookup l₁ k).orElse fun _ => mapLookup l₂ k) := by
  induction l₁ with
  | nil => simp [mapLookup]
  | cons p rest ih =>
    by_cases h : p.1 = k <;> simp [mapLookup, h, ih]

theorem mapLookup_eq_none_iff [DecidableEq K] (l : List (K × V)) (k : K) :
    mapLookup l k = none ↔ ∀ p ∈ l, p.1 ≠ k := by
  induction l with
  | nil => simp [mapLookup]
  | cons p rest ih =>
    by_cases h : p.1 = k <;> simp [mapLookup, h, ih]

theorem mapLookup_filter_ne [DecidableEq K] (l : List (K × V)) (k : K) :
    mapLookup (l.filter fun p => decide (p.1 ≠ k)) k = none := by
  rw [mapLookup_eq_none_iff]
  intro p hp
  simpa using (List.of_mem_filter hp)

theorem mapLookup_filter_of_ne [DecidableEq K] (l : List (K × V)) {k k' : K}
    (h : k' ≠ k) : mapLookup (l.filter fun p => decide (p.1 ≠ k)) k' = mapLookup l k' := by
  induction l with
  | nil => simp [mapLookup]
  | cons p rest ih =>
    simp only [ne_eq, decide_not] at ih ⊢
    by_cases hpk : p.1 = k
    · simp [List.filter_cons, hpk, mapLookup, Ne.symm h, ih]
    · by_cases hpk' : p.1 = k' <;>
        simp [List.filter_cons, hpk, mapLookup, hpk', h, ih]

theorem mapLookup_append_of_isSome [DecidableEq K] (l₁ l₂ : List (K × V)) (k : K)
    (h : (mapLookup l₁ k).isSome) : mapLookup (l₁ ++ l₂) k = mapLookup l₁ k := by
  rw [mapLookup_append]
  obtain ⟨v, hv⟩ := Option.isSome_iff_exists.mp h
  simp [hv]

theorem mapLookup_append_of_none [DecidableEq K] (l₁ l₂ : List (K × V)) (k : K)
    (h : mapLookup l₁ k = none) : mapLookup (l₁ ++ l₂) k = mapLookup l₂ k := by
  rw [mapLookup_append, h]
  rfl

theorem mapLookup_singleton_self [DecidableEq K] (k : K) (v : V) :
    mapLookup [(k, v)] k = some v := by
  simp [mapLookup]

/-! ## Lemmas about `Store`, `Delete`, `LoadOrStore` and the invariant -/

namespace OrderedMap

theorem store_of_present [DecidableEq K] (m : OrderedMap K V) (k : K) (v : V)
    (h : (mapLookup m.items k).isSome) : m.Store k v = m := by
  simp [Store, h]

theorem store_of_absent [DecidableEq K] (m : OrderedMap K V) (k : K) (v : V)
    (h : mapLookup m.items k = none) :
    m.Store k v = ⟨m.keys ++ [k], m.items ++ [(k, v)]⟩ := by
  simp [Store, h]

theorem loadOrStore_fst [DecidableEq K] [Inhabited V] (m : OrderedMap K V) (k : K) (v : V) :
    (m.LoadOrStore k v).1 = m.Store k v := by
  unfold LoadOrStore Load
  cases h : mapLookup m.items k with
  | some w => simp [store_of_present m k v (by simp [h])]
  | none => simp

theorem inv_new [DecidableEq K] : Inv (New : OrderedMap K V) := by
  refine ⟨List.nodup_nil, ?_, ?_⟩ <;> simp [New]

theorem inv_store [DecidableEq K] (m : OrderedMap K V) (k : K) (v : V)
    (h : Inv m) : Inv (m.Store k v) := by
  obtain ⟨hnd, hkeys, hitems⟩ := h
  cases hp : (mapLookup m.items k).isSome with
  | true => rw [store_of_present m k v hp]; exact ⟨hnd, hkeys, hitems⟩
  | false =>
    have hnone : mapLookup m.items k = none := by
      cases hl : mapLookup m.items k with
      | some w => rw [hl] at hp; simp at hp
      | none => rfl
    rw [store_of_absent m k v hnone]
    have hknot : k ∉ m.keys := by
      intro hk
      have := hkeys k hk
      rw [hnone] at this
      simp at this
    refine ⟨?_, ?_, ?_⟩
    · simpa [List.nodup_append] using ⟨hnd, fun hk => hknot hk⟩
    · intro k₀ hk₀
      rcases List.mem_append.mp hk₀ with hk₀ | hk₀
      · rw [mapLookup_append_of_isSome _ _ _ (hkeys k₀ hk₀)]
        exact hkeys k₀ hk₀
      · have : k₀ = k := by simpa using hk₀
        subst this
        rw [mapLookup_append_of_none _ _ _ hnone, mapLookup_singleton_self]
        rfl
    · intro p hp
      rcases List.mem_append.mp hp with hp | hp
      · exact List.mem_append.mpr (Or.inl (hitems p hp))
      · have : p = (k, v) := by simpa using hp
        subst this
        simp

theorem inv_delete [DecidableEq K] (m : OrderedMap K V) (k : K)
    (h : Inv m) : Inv (m.Delete k) := by
  obtain ⟨hnd, hkeys, hitems⟩ := h
  unfold Delete
  cases hp : (mapLookup m.items k).isSome with
  | false => simpa [hp] using ⟨hnd, hkeys, hitems⟩
  | true =>
    simp only [hp, if_true]
    refine ⟨hnd.erase k, ?_, ?_⟩
    · intro k₀ hk₀
      have hmem := (hnd.mem_erase_iff).mp hk₀
      rw [mapLookup_filter_of_ne _ hmem.1]
      exact hkeys k₀ hmem.2
    · intro p hp'
      have h1 : p ∈ m.items := List.mem_of_mem_filter hp'
      have h2 : ¬ p.1 = k := by simpa using (List.of_mem_filter hp')
      exact (hnd.mem_erase_iff).mpr ⟨h2, hitems p h1⟩

theorem inv_clear [DecidableEq K] (m : OrderedMap K V) : Inv (m.Clear) :=
  inv_new

theorem inv_applyOp [DecidableEq K] [Inhabited V] (m : OrderedMap K V) (op : Op K V)
    (h : Inv m) : Inv (applyOp m op) := by
  cases op with
  | store k v => exact inv_store m k v h
  | delete k => exact inv_delete m k h
  | clear => exact inv_clear m
  | loadOrStore k v =>
    show Inv (m.LoadOrStore k v).1
    rw [loadOrStore_fst]
    exact inv_store m k v h

theorem inv_foldl [DecidableEq K] [Inhabited V] (ops : List (Op K V))
    (m : OrderedMap K V) (h : Inv m) : Inv (ops.foldl applyOp m) := by
  induction ops generalizing m with
  | nil => exact h
  | cons op rest ih => exact ih _ (inv_applyOp m op h)

theorem inv_applyOps [DecidableEq K] [Inhabited V] (ops : List (Op K V)) :
    Inv (applyOps ops) :=
  inv_foldl ops New inv_new

theorem lookup_isSome_iff_mem [DecidableEq K] (m : OrderedMap K V) (h : Inv m) (k : K) :
    (mapLookup m.items k).isSome ↔ k ∈ m.keys := by
  constructor
  · intro hs
    have hne : ¬ mapLookup m.items k = none := by
      intro hn
      rw [hn] at hs
      simp at hs
    rw [mapLookup_eq_none_iff] at hne
    push_neg at hne
    obtain ⟨p, hp, hpk⟩ := hne
    exact hpk ▸ h.2.2 p hp
  · intro hk
    exact h.2.1 k hk

end OrderedMap

/-! ## Lemmas about `orderedPairs` and `travelPairs` -/

theorem filterMap_lookup_append [DecidableEq K] (ks : List K) (l l₂ : List (K × V))
    (h : ∀ k ∈ ks, (mapLookup l k).isSome) :
    (ks.filterMap fun k => (mapLookup (l ++ l₂) k).map fun v => (k, v)) =
      ks.filterMap fun k => (mapLookup l k).map fun v => (k, v) := by
  induction ks with
  | nil => rfl
  | cons k rest ih =>
    rw [List.filterMap_cons, List.filterMap_cons,
      mapLookup_append_of_isSome _ _ _ (h k (by simp)),
      ih fun k₀ hk₀ => h k₀ (by simp [hk₀])]

theorem filterMap_lookup_length [DecidableEq K] (ks : List K) (l : List (K × V))
    (h : ∀ k ∈ ks, (mapLookup l k).isSome) :
    (ks.filterMap fun k => (mapLookup l k).map fun v => (k, v)).length = ks.length := by
  induction ks with
  | nil => rfl
  | cons k rest ih =>
    obtain ⟨v, hv⟩ := Option.isSome_iff_exists.mp (h k (by simp))
    rw [List.filterMap_cons, hv]
    simp [ih fun k₀ hk₀ => h k₀ (by simp [hk₀])]

theorem orderedPairs_length [DecidableEq K] (m : OrderedMap K V)
    (h : ∀ k ∈ m.keys, (mapLookup m.items k).isSome) :
    (orderedPairs m).length = m.keys.length := by
  simp only [orderedPairs, travelPairs, travelKeys]
  exact filterMap_lookup_length m.keys m.items h

theorem travelPairs_reverse_eq [DecidableEq K] (m : OrderedMap K V) :
    travelPairs m .reverse = (orderedPairs m).reverse := by
  simp [travelPairs, orderedPairs, travelKeys, List.filterMap_reverse]

theorem orderedPairs_store_absent [DecidableEq K] (m : OrderedMap K V) (k : K) (v : V)
    (hsub : ∀ k₀ ∈ m.keys, (mapLookup m.items k₀).isSome)
    (h : mapLookup m.items k = none) :
    orderedPairs (m.Store k v) = orderedPairs m ++ [(k, v)] := by
  rw [OrderedMap.store_of_absent m k v h]
  simp only [orderedPairs, travelPairs, travelKeys]
  rw [List.filterMap_append]
  congr 1
  · exact filterMap_lookup_append m.keys m.items _ hsub
  · rw [List.filterMap_cons, mapLookup_append_of_none _ _ _ h, mapLookup_singleton_self]
    rfl

theorem orderedPairs_storeAll [DecidableEq K] (l : List (K × V)) (m : OrderedMap K V)
    (hInv : Inv m) (habs : ∀ p ∈ l, mapLookup m.items p.1 = none)
    (hnd : (l.map Prod.fst).Nodup) :
    orderedPairs (storeAll m l) = orderedPairs m ++ l ∧ Inv (storeAll m l) := by
  induction l generalizing m with
  | nil => simpa [storeAll] using hInv
  | cons p rest ih =>
    obtain ⟨k, v⟩ := p
    have hnone : mapLookup m.items k = none := habs (k, v) (by simp)
    have hInv' : Inv (m.Store k v) := OrderedMap.inv_store m k v hInv
    have hknotin : k ∉ rest.map Prod.fst := by
      have := hnd
      simp only [List.map_cons, List.nodup_cons] at this
      exact this.1
    have habs' : ∀ q ∈ rest, mapLookup (m.Store k v).items q.1 = none := by
      intro q hq
      rw [OrderedMap.store_of_absent m k v hnone]
      dsimp only
      rw [mapLookup_append_of_none _ _ _ (habs q (by simp [hq]))]
      have hqk : ¬ k = q.1 := by
        intro hqk
        exact hknotin (hqk ▸ List.mem_map_of_mem Prod.fst hq)
      simp [mapLookup, hqk]
    have hnd' : (rest.map Prod.fst).Nodup := by
      simp only [List.map_cons, List.nodup_cons] at hnd
      exact hnd.2
    obtain ⟨h1, h2⟩ := ih (m.Store k v) hInv' habs' hnd'
    refine ⟨?_, h2⟩
    have hstep : storeAll m ((k, v) :: rest) = storeAll (m.Store k v) rest := rfl
    rw [hstep, h1, orderedPairs_store_absent m k v hInv.2.1 hnone]
    simp

/-! ## Keys of a state reached by a sequence of operations -/

theorem keys_applyOp [DecidableEq K] [Inhabited V] (m : OrderedMap K V) (op : Op K V)
    (h : Inv m) : (applyOp m op).keys = liveStep m.keys op := by
  have store_case : ∀ (k : K) (v : V),
      (m.Store k v).keys = if k ∈ m.keys then m.keys else m.keys ++ [k] := by
    intro k v
    by_cases hp : (mapLookup m.items k).isSome
    · rw [OrderedMap.store_of_present m k v hp,
        if_pos ((OrderedMap.lookup_isSome_iff_mem m h k).mp hp)]
    · have hnone : mapLookup m.items k = none := by
        cases hl : mapLookup m.items k with
        | some w => rw [hl] at hp; simp at hp
        | none => rfl
      have : k ∉ m.keys := fun hk =>
        hp ((OrderedMap.lookup_isSome_iff_mem m h k).mpr hk)
      rw [OrderedMap.store_of_absent m k v hnone, if_neg this]
  cases op with
  | store k v => exact store_case k v
  | loadOrStore k v =>
    show (m.LoadOrStore k v).1.keys = _
    rw [OrderedMap.loadOrStore_fst]
    exact store_case k v
  | clear => rfl
  | delete k =>
    show (m.Delete k).keys = m.keys.erase k
    unfold OrderedMap.Delete
    by_cases hp : (mapLookup m.items k).isSome
    · simp [hp]
    · have : k ∉ m.keys := fun hk =>
        hp ((OrderedMap.lookup_isSome_iff_mem m h k).mpr hk)
      simp [hp, List.erase_of_not_mem this]

theorem keys_foldl_applyOp [DecidableEq K] [Inhabited V] (ops : List (Op K V))
    (m : OrderedMap K V) (h : Inv m) :
    (ops.foldl applyOp m).keys = ops.foldl liveStep m.keys := by
  induction ops generalizing m with
  | nil => rfl
  | cons op rest ih =>
    rw [List.foldl_cons, List.foldl_cons, ih _ (OrderedMap.inv_applyOp m op h),
      keys_applyOp m op h]

theorem keys_applyOps_eq_liveList [DecidableEq K] [Inhabited V] (ops : List (Op K V)) :
    (applyOps ops).keys = liveList ops :=
  keys_foldl_applyOp ops OrderedMap.New OrderedMap.inv_new

/-! ## Lemmas about the traversal engine -/

theorem sliceWalk_aux (i : Nat) (l : List (K × V)) :
    (((travelWalk (fun _ _ _ => (false : Bool)) [] i l).filterMap
        fun t => if t.2.2.2 then some (t.1, t.2.1, t.2.2.1) else none).map
      fun t => t.2.2) = l.map Prod.snd := by
  induction l generalizing i with
  | nil => rfl
  | cons p rest ih =>
    obtain ⟨k, v⟩ := p
    simp [travelWalk, runFilters, ih]

theorem slice_nil_filters [DecidableEq K] (m : OrderedMap K V) (mode : TravelMode) :
    slice m mode [] = (travelPairs m mode).map Prod.snd := by
  unfold slice travel
  exact sliceWalk_aux 0 _

theorem rangeWalk_aux (f : K → V → Bool) (i : Nat) (l : List (K × V)) :
    (((travelWalk (fun _ k v => f k v) [] i l).filterMap
        fun t => if t.2.2.2 then some (t.1, t.2.1, t.2.2.1) else none).map
      fun t => (t.2.1, t.2.2)) = rangeSpecVisits f l := by
  induction l generalizing i with
  | nil => rfl
  | cons p rest ih =>
    obtain ⟨k, v⟩ := p
    by_cases hf : f k v <;> simp [travelWalk, runFilters, rangeSpecVisits, hf, ih]

theorem travelWalk_indices (f : Nat → K → V → Bool) (fs : List (Nat → K → V → Bool))
    (i : Nat) (l : List (K × V)) :
    (travelWalk f fs i l).map (fun t => t.1) =
      List.range' i (travelWalk f fs i l).length := by
  induction l generalizing i with
  | nil => rfl
  | cons p rest ih =>
    obtain ⟨k, v⟩ := p
    simp only [travelWalk]
    by_cases hacc : (runFilters fs i k v).1
    · by_cases hstop : f i k v
      · simp [hacc, hstop, List.range'_succ]
      · simp [hacc, hstop, List.range'_succ, ih]
    · simp [hacc, List.range'_succ, ih]

theorem travelWalk_length_no_stop (f : Nat → K → V → Bool)
    (fs : List (Nat → K → V → Bool)) (i : Nat) (l : List (K × V))
    (h : ∀ j k v, f j k v = false) :
    (travelWalk f fs i l).length = l.length := by
  induction l generalizing i with
  | nil => rfl
  | cons p rest ih =>
    obtain ⟨k, v⟩ := p
    simp only [travelWalk]
    by_cases hacc : (runFilters fs i k v).1 <;> simp [hacc, h, ih]

theorem runFilters_fst_eq_all (fs : List (Nat → K → V → Bool)) (i : Nat) (k : K) (v : V) :
    (runFilters fs i k v).1 = fs.all fun g => g i k v := by
  induction fs with
  | nil => rfl
  | cons g rest ih =>
    by_cases hg : g i k v <;> simp [runFilters, hg, ih]

theorem runFilters_break (fs₁ : List (Nat → K → V → Bool)) (g : Nat → K → V → Bool)
    (fs₂ : List (Nat → K → V → Bool)) (i : Nat) (k : K) (v : V)
    (h₁ : ∀ f ∈ fs₁, f i k v = true) (hg : g i k v = false) :
    runFilters (fs₁ ++ g :: fs₂) i k v = (false, fs₁.length + 1) := by
  induction fs₁ with
  | nil => simp [runFilters, hg]
  | cons f rest ih =>
    have hf : f i k v = true := h₁ f (by simp)
    have hrest := ih fun f' hf' => h₁ f' (by simp [hf'])
    simp [runFilters, hf, hrest]

theorem travelWalk_accepted (f : Nat → K → V → Bool) (fs : List (Nat → K → V → Bool))
    (i : Nat) (l : List (K × V)) :
    ∀ t ∈ travelWalk f fs i l, t.2.2.2 = true →
      (runFilters fs t.1 t.2.1 t.2.2.1).1 = true := by
  induction l generalizing i with
  | nil => intro t ht; simp [travelWalk] at ht
  | cons p rest ih =>
    obtain ⟨k, v⟩ := p
    intro t ht htacc
    simp only [travelWalk] at ht
    by_cases hacc : (runFilters fs i k v).1
    · rw [if_pos hacc] at ht
      by_cases hstop : f i k v
      · rw [if_pos hstop] at ht
        have : t = (i, k, v, true) := by simpa using ht
        subst this
        exact hacc
      · rw [if_neg hstop] at ht
        rcases List.mem_cons.mp ht with h | h
        · subst h; exact hacc
        · exact ih (i + 1) t h htacc
    · rw [if_neg hacc] at ht
      rcases List.mem_cons.mp ht with h | h
      · subst h; simp at htacc
      · exact ih (i + 1) t h htacc

theorem travel_accepted [DecidableEq K] (m : OrderedMap K V) (mode : TravelMode)
    (f : Nat → K → V → Bool) (fs : List (Nat → K → V → Bool)) :
    ∀ t ∈ travel m mode f fs, (runFilters fs t.1 t.2.1 t.2.2).1 = true := by
  intro t ht
  unfold travel at ht
  rw [List.mem_filterMap] at ht
  obtain ⟨a, ha, hat⟩ := ht
  by_cases haa : a.2.2.2
  · rw [if_pos haa] at hat
    obtain rfl : (a.1, a.2.1, a.2.2.1) = t := by simpa using hat
    exact travelWalk_accepted f fs 0 _ a ha haa
  · rw [if_neg haa] at hat
    simp at hat

/-! ## Lemmas about the serializer -/

theorem exceptMapM_isEmpty {E γ : Type} {β : Type w} (f : β → Except E γ) (l : List β)
    (parts : List γ) (h : l.mapM f = .ok parts) : l.isEmpty = parts.isEmpty := by
  cases l with
  | nil =>
    rw [List.mapM_nil] at h
    obtain rfl : parts = [] := by
      cases parts with
      | nil => rfl
      | cons x xs => simp [pure, Except.pure] at h
    rfl
  | cons b bs =>
    rw [List.mapM_cons] at h
    cases hb : f b with
    | error e => rw [hb] at h; simp [Bind.bind, Except.bind] at h
    | ok x =>
      rw [hb] at h
      cases hbs : bs.mapM f with
      | error e => rw [hbs] at h; simp [Bind.bind, Except.bind] at h
      | ok xs =>
        rw [hbs] at h
        obtain rfl : parts = x :: xs := by
          simpa [Bind.bind, Except.bind, pure, Except.pure] using h.symm
        rfl

theorem joinComma_cons (s : String) (parts : List String) :
    joinComma (s :: parts) = s ++ (if parts.isEmpty then "" else ",") ++ joinComma parts := by
  cases parts with
  | nil => simp [joinComma]
  | cons x xs => simp [joinComma]

theorem marshalBody_eq_mapM {E : Type} (encK : K → Except E String)
    (encV : V → Except E String) (l : List (K × V)) :
    marshalBody encK encV l = (l.mapM (encodePairSpec encK encV)).map joinComma := by
  induction l with
  | nil => rfl
  | cons p rest ih =>
    obtain ⟨k, v⟩ := p
    rw [List.mapM_cons]
    cases hk : encK k with
    | error e => simp [marshalBody, encodePairSpec, hk, Bind.bind, Except.bind, Except.map]
    | ok ks =>
      cases hv : encV v with
      | error e =>
        simp [marshalBody, encodePairSpec, hk, hv, Bind.bind, Except.bind, Except.map]
      | ok vs =>
        simp only [marshalBody, encodePairSpec, hk, hv]
        rw [ih]
        cases hrest : rest.mapM (encodePairSpec encK encV) with
        | error e => rfl
        | ok parts =>
          have hemp := exceptMapM_isEmpty _ rest parts hrest
          simp [Bind.bind, Except.bind, Except.map, pure, Except.pure, joinComma_cons,
            hemp, String.append_assoc]

theorem marshalJSON_eq_marshalSpec [DecidableEq K] {E : Type}
    (encK : K → Except E String) (encV : V → Except E String) (m : OrderedMap K V) :
    MarshalJSON encK encV m = marshalSpec encK encV (orderedPairs m) := by
  unfold MarshalJSON marshalSpec
  rw [marshalBody_eq_mapM]
  cases hrest : (orderedPairs m).mapM (encodePairSpec encK encV) with
  | error e => rfl
  | ok parts => rfl

/-! ## Concrete example data used by witnesses -/

/-- The map of the spec's running example: values `[1,2,3,4,5]` stored in
order under keys `1..5`. -/
def exampleMap : OrderedMap Nat Nat :=
  storeAll OrderedMap.New [(1, 1), (2, 2), (3, 3), (4, 4), (5, 5)]

/-- The filter `v > 1` of the spec's example. -/
def filterGT1 : Nat → Nat → Nat → Bool := fun _ _ v => decide (1 < v)

/-- The filter `v < 5` of the spec's example. -/
def filterLT5 : Nat → Nat → Nat → Bool := fun _ _ v => decide (v < 5)

/-- A small mixed operation sequence. -/
def exampleOps : List (Op Nat Nat) :=
  [.store 1 10, .store 2 20, .delete 1, .loadOrStore 3 30, .store 2 99]

/-! ## Claim theorems -/

/-- C1: the claim says that after `Store(k, v1)` followed by `Store(k, v2)`,
`Load(k)` returns `v2`.  The code's `Store` skips the whole body when the key
is already present, so the second `Store` is a no-op and `Load` still
returns `v1`: at the failing input below the claim requires `(2, true)` but
the code yields `(1, true)`. -/
theorem store_restore_keeps_first_value :
    (((OrderedMap.New : OrderedMap String Nat).Store "a" 1).Store "a" 2).Load "a"
        = (1, true) ∧
      Slice (((OrderedMap.New : OrderedMap String Nat).Store "a" 1).Store "a" 2) [] = [1] :=
  ⟨rfl, rfl⟩

/-- C2: the claim says `LoadOrStore(k, v)` on an absent key stores `v` and
returns `(v, false)`.  The code stores `v` but returns the zero value of `V`
captured by the failed `Load` (contradicting its own doc comment and the
test example `om.LoadOrStore("k6", 6) // return 6, false`): at the failing
input it returns `(0, false)` instead of `(6, false)`. -/
theorem loadOrStore_returns_zero_value :
    ((OrderedMap.New : OrderedMap String Nat).LoadOrStore "k6" 6).2 = (0, false) ∧
      ((OrderedMap.New : OrderedMap String Nat).LoadOrStore "k6" 6).1.Load "k6" = (6, true) :=
  ⟨rfl, rfl⟩

/-- C3: storing pairwise-distinct keys `k1..kn` with values `v1..vn` on a
fresh map makes `Slice` (forward) return exactly `[v1, …, vn]` in call
order and `Reverse` exactly the reversal; moreover
`Reverse(m) = reverse(Slice(m))` for every map. -/
theorem store_sequence_slice_order [DecidableEq K] (l : List (K × V))
    (hnd : (l.map Prod.fst).Nodup) :
    Slice (storeAll OrderedMap.New l) [] = l.map Prod.snd ∧
      ReverseSlice (storeAll OrderedMap.New l) [] = (l.map Prod.snd).reverse ∧
      ∀ m : OrderedMap K V, ReverseSlice m [] = (Slice m []).reverse := by
  have hpairs : orderedPairs (storeAll (OrderedMap.New : OrderedMap K V) l) = l := by
    have h := orderedPairs_storeAll l OrderedMap.New OrderedMap.inv_new
      (fun p _ => rfl) hnd
    simpa using h.1
  have hrev : ∀ m : OrderedMap K V, ReverseSlice m [] = (Slice m []).reverse := by
    intro m
    rw [ReverseSlice, Slice, slice_nil_filters, slice_nil_filters, travelPairs_reverse_eq]
    exact List.map_reverse _ _
  refine ⟨?_, ?_, hrev⟩
  · rw [Slice, slice_nil_filters]
    exact congrArg (List.map Prod.snd) hpairs
  · rw [hrev, Slice, slice_nil_filters]
    exact congrArg (fun l₀ => (List.map Prod.snd l₀).reverse) hpairs

/-- Witness for C3 at the concrete input `[(1,10),(2,20),(3,30)]`. -/
theorem store_sequence_slice_order_witness :
    Slice (storeAll (OrderedMap.New : OrderedMap Nat Nat) [(1, 10), (2, 20), (3, 30)]) []
        = [10, 20, 30] ∧
      ReverseSlice (storeAll (OrderedMap.New : OrderedMap Nat Nat)
          [(1, 10), (2, 20), (3, 30)]) [] = [30, 20, 10] :=
  ⟨(store_sequence_slice_order [(1, 10), (2, 20), (3, 30)] (by decide)).1,
   (store_sequence_slice_order [(1, 10), (2, 20), (3, 30)] (by decide)).2.1⟩

/-- C4: `MarshalJSON` produces `{` + the items in insertion order as
`encodedKey ':' encodedValue` joined by `,` with no trailing comma + `}`
(the content of `marshalSpec`); the empty map produces exactly `"{}"`; and
any encoding error is returned unchanged with no partial result. -/
theorem marshalJSON_format [DecidableEq K] {E : Type} (encK : K → Except E String)
    (encV : V → Except E String) (m : OrderedMap K V) :
    MarshalJSON encK encV m = marshalSpec encK encV (orderedPairs m) ∧
      (m.keys = [] → MarshalJSON encK encV m = .ok "\x7b\x7d") ∧
      (∀ e : E, (orderedPairs m).mapM (encodePairSpec encK encV) = .error e →
        MarshalJSON encK encV m = .error e) := by
  refine ⟨marshalJSON_eq_marshalSpec encK encV m, ?_, ?_⟩
  · intro hk
    have hp : orderedPairs m = [] := by
      simp [orderedPairs, travelPairs, travelKeys, hk]
    rw [marshalJSON_eq_marshalSpec encK encV m, hp]
    rfl
  · intro e he
    rw [marshalJSON_eq_marshalSpec encK encV m]
    unfold marshalSpec
    rw [he]

/-- Witness for C4: the empty map marshals to `"{}"`, and a failing value
encoder propagates its error. -/
theorem marshalJSON_format_witness :
    MarshalJSON (fun n : Nat => (.ok (toString n) : Except Unit String))
        (fun n : Nat => .ok (toString n)) (OrderedMap.New : OrderedMap Nat Nat)
      = .ok "\x7b\x7d" ∧
      MarshalJSON (fun n : Nat => (.ok (toString n) : Except Unit String))
          (fun _ : Nat => .error ()) exampleMap = .error () :=
  ⟨(marshalJSON_format _ _ _).2.1 rfl,
   (marshalJSON_format _ _ exampleMap).2.2 () rfl⟩

/-- C5: the walk of any `Travel` call assigns the `i`-th node encountered
position index exactly `i`, incrementing once per node whatever the filters
decide; a traversal whose visitor never stops walks all `Len` nodes and
assigns indices `0..Len-1`. -/
theorem travel_position_index [DecidableEq K] (m : OrderedMap K V) (mode : TravelMode)
    (f : Nat → K → V → Bool) (fs : List (Nat → K → V → Bool)) :
    ((travelWalk f fs 0 (travelPairs m mode)).map fun t => t.1)
        = List.range (travelWalk f fs 0 (travelPairs m mode)).length ∧
      ((∀ j k v, f j k v = false) → Inv m →
        ((travelWalk f fs 0 (travelPairs m mode)).map fun t => t.1)
          = List.range m.Len) := by
  have h1 := travelWalk_indices f fs 0 (travelPairs m mode)
  constructor
  · rw [h1, List.range_eq_range']
  · intro hstop hInv
    rw [h1, travelWalk_length_no_stop f fs 0 _ hstop, List.range_eq_range']
    congr 1
    cases mode with
    | forward => exact orderedPairs_length m hInv.2.1
    | reverse =>
      rw [travelPairs_reverse_eq, List.length_reverse]
      exact orderedPairs_length m hInv.2.1

/-- Witness for C5 on the example map: a never-stopping traversal through a
rejecting filter still numbers all five nodes `0..4`. -/
theorem travel_position_index_witness :
    ((travelWalk (fun _ _ _ => false) [filterGT1] 0
        (travelPairs exampleMap .forward)).map fun t => t.1) = List.range 5 :=
  (travel_position_index exampleMap .forward (fun _ _ _ => false) [filterGT1]).2
    (fun _ _ _ => rfl) (by decide)

/-- C6: a node is passed to the visitor iff every filter accepts it
(logical AND); at the first rejecting filter the rest of the chain is not
evaluated (the number of filters called is the rejector's position + 1) and
the node is dropped; and on values `[1,2,3,4,5]` the filters `v>1`, `v<5`
slice to `[2,3,4]`. -/
theorem filters_and_short_circuit [DecidableEq K] (m : OrderedMap K V)
    (mode : TravelMode) (f : Nat → K → V → Bool) (i : Nat) (k : K) (v : V)
    (fs fs₁ fs₂ : List (Nat → K → V → Bool)) (g : Nat → K → V → Bool) :
    (runFilters fs i k v).1 = fs.all (fun g₀ => g₀ i k v) ∧
      (∀ t ∈ travel m mode f fs, (runFilters fs t.1 t.2.1 t.2.2).1 = true) ∧
      ((∀ f₀ ∈ fs₁, f₀ i k v = true) → g i k v = false →
        runFilters (fs₁ ++ g :: fs₂) i k v = (false, fs₁.length + 1)) ∧
      Slice exampleMap [filterGT1, filterLT5] = [2, 3, 4] :=
  ⟨runFilters_fst_eq_all fs i k v,
   travel_accepted m mode f fs,
   fun h₁ hg => runFilters_break fs₁ g fs₂ i k v h₁ hg,
   by decide⟩

/-- Witness for C6: the chain `[v<5, v>1, v<5]` at node `(1, 1)` rejects at
the second filter and calls exactly two filters; the example slice is
`[2,3,4]`. -/
theorem filters_and_short_circuit_witness :
    runFilters ([filterLT5] ++ filterGT1 :: [filterLT5]) 0 1 1 = (false, 2) ∧
      Slice exampleMap [filterGT1, filterLT5] = [2, 3, 4] :=
  ⟨(filters_and_short_circuit (V := Nat) exampleMap .forward (fun _ _ _ => false)
      0 1 1 [] [filterLT5] [filterLT5] filterGT1).2.2.1 (by decide) (by decide),
   (filters_and_short_circuit (V := Nat) exampleMap .forward (fun _ _ _ => false)
      0 1 1 [] [filterLT5] [filterLT5] filterGT1).2.2.2⟩

/-- C7: after any sequence of operations the key list is duplicate-free and
in bijection with the items index; `Len` equals the number of nodes
reachable front-to-back, which equals the number of distinct keys stored
and not subsequently deleted. -/
theorem operations_preserve_bijection [DecidableEq K] [Inhabited V]
    (ops : List (Op K V)) :
    (applyOps ops).keys.Nodup ∧
      (∀ k, (mapLookup (applyOps ops).items k).isSome ↔ k ∈ (applyOps ops).keys) ∧
      (applyOps ops).Len = (orderedPairs (applyOps ops)).length ∧
      (applyOps ops).keys = liveList ops := by
  have hInv := OrderedMap.inv_applyOps (K := K) (V := V) ops
  refine ⟨hInv.1, fun k => OrderedMap.lookup_isSome_iff_mem _ hInv k, ?_,
    keys_applyOps_eq_liveList ops⟩
  rw [orderedPairs_length _ hInv.2.1]
  rfl

/-- Witness for C7 at a concrete mixed sequence. -/
theorem operations_preserve_bijection_witness :
    (applyOps exampleOps).keys = [2, 3] :=
  (operations_preserve_bijection exampleOps).2.2.2

/-- C8: deleting a present key removes it (`Has` becomes false, `Len` drops
by one); deleting an absent key is a silent no-op leaving the state — hence
`Len` and both slices — entirely unchanged. -/
theorem delete_present_absent [DecidableEq K] (m : OrderedMap K V) (k : K)
    (hInv : Inv m) :
    (m.Has k = true → (m.Delete k).Has k = false ∧ (m.Delete k).Len + 1 = m.Len) ∧
      (m.Has k = false → m.Delete k = m ∧ (m.Delete k).Len = m.Len ∧
        ∀ fs, Slice (m.Delete k) fs = Slice m fs ∧
          ReverseSlice (m.Delete k) fs = ReverseSlice m fs) := by
  constructor
  · intro hp
    have hs : (mapLookup m.items k).isSome := hp
    have hmem : k ∈ m.keys := (OrderedMap.lookup_isSome_iff_mem m hInv k).mp hs
    constructor
    · show ((m.Delete k).Has k) = false
      unfold OrderedMap.Delete OrderedMap.Has
      rw [if_pos hs]
      dsimp only
      rw [mapLookup_filter_ne]
      rfl
    · show (m.Delete k).Len + 1 = m.Len
      unfold OrderedMap.Delete OrderedMap.Len
      rw [if_pos hs]
      dsimp only
      rw [List.length_erase_of_mem hmem]
      have hpos : 0 < m.keys.length := List.length_pos.mpr (List.ne_nil_of_mem hmem)
      omega
  · intro ha
    have hn : ¬ (mapLookup m.items k).isSome := by
      intro hs
      rw [OrderedMap.Has, hs] at ha
      cases ha
    have heq : m.Delete k = m := by
      unfold OrderedMap.Delete
      rw [if_neg hn]
    exact ⟨heq, by rw [heq], fun fs => by rw [heq]; exact ⟨rfl, rfl⟩⟩

/-- Witness for C8: deleting the present key `3` and the absent key `9` on
the example map. -/
theorem delete_present_absent_witness :
    (exampleMap.Delete 3).Has 3 = false ∧ (exampleMap.Delete 3).Len + 1 = exampleMap.Len ∧
      exampleMap.Delete 9 = exampleMap :=
  ⟨((delete_present_absent exampleMap 3 (by decide)).1 (by decide)).1,
   ((delete_present_absent exampleMap 3 (by decide)).1 (by decide)).2,
   ((delete_present_absent exampleMap 9 (by decide)).2 (by decide)).1⟩

/-- C9: the claim says that among concurrent callers racing `LoadOrStore` on
the same absent key exactly one observes `loaded=false`.  Because the source
releases the read lock after `Load` and only then takes the write lock in
`Store`, the interleaving Load₁, Load₂, Store₁, Store₂ makes both threads
observe `loaded=false` (the final stored value is nevertheless `v1` for
all observers, since `Store` never overwrites). -/
theorem loadOrStore_race_both_not_loaded :
    losRun2 "a" (1 : Nat) 2 [true, false, true, false]
        = (⟨["a"], [("a", 1)]⟩, .done 0 false, .done 0 false) ∧
      (losRun2 "a" (1 : Nat) 2 [true, false, true, false]).1.Load "a" = (1, true) :=
  ⟨by decide, rfl⟩

/-- C10: `Range(f)` is exactly `TravelForward` with no filters and the
visitor `fun idx k v => f k v`; it visits items front-to-back and stops
exactly at the first item where `f` returns `true` (inclusively), as
`rangeSpecVisits` states. -/
theorem range_refines_travel [DecidableEq K] (m : OrderedMap K V) (f : K → V → Bool) :
    rangeVisits m f
        = ((travel m .forward (fun _ k v => f k v) []).map fun t => (t.2.1, t.2.2)) ∧
      rangeVisits m f = rangeSpecVisits f (orderedPairs m) := by
  refine ⟨rfl, ?_⟩
  unfold rangeVisits travel
  exact rangeWalk_aux f 0 _

/-- Witness for C10: on the example map, a callback that stops at `v ≥ 3`
visits `(1,1), (2,2), (3,3)` and nothing after. -/
theorem range_refines_travel_witness :
    rangeVisits exampleMap (fun _ v => decide (3 ≤ v)) = [(1, 1), (2, 2), (3, 3)] :=
  (range_refines_travel exampleMap (fun _ v => decide (3 ≤ v))).2

end OM
